import Mathlib

/-!
Shallow embedding of `pdf_extractor.py`, the heuristic PDF title / heading-outline
extractor.  Python strings are modelled through their character lists
(`String.data`); Python floats (font sizes, title scores) are modelled as
rationals; the regular expressions of the source are modelled by explicit
character-list matchers that follow each pattern literally, with ASCII semantics
for `\d`, `\s`, `\w` and for `[A-Z]` under `re.IGNORECASE`.  Fractional
constants are written with `Rat.divInt` (so `Rat.divInt 1 2` is the literal
`0.5` of the source).  Python's `list.sort` is a stable sort, and any two
stable sorts with the same key agree, so it is modelled by
`List.insertionSort`.
-/

/-- Python whitespace test for one character (ASCII model of `\s` / `str.strip`). -/
def isWs (c : Char) : Bool := c.isWhitespace

/-- Characters of a string with the leading and trailing whitespace removed. -/
def trimChars (l : List Char) : List Char :=
  ((l.dropWhile isWs).reverse.dropWhile isWs).reverse

/-- Python `str.strip()`. -/
def trimStr (s : String) : String := String.mk (trimChars s.data)

/-- Case-insensitive prefix test: the pattern is given lowercase and each text
character is lowered before comparison; this renders both `re.IGNORECASE`
matching and Python's lower-then-compare idioms (ASCII model). -/
def ciStarts : List Char → List Char → Bool
  | [], _ => true
  | _ :: _, [] => false
  | p :: ps, c :: cs => (p == c.toLower) && ciStarts ps cs

/-- Helper for Python `str.split()`: the accumulator holds the current word reversed. -/
def splitWsAux : List Char → List Char → List (List Char)
  | [], acc => if acc.isEmpty then [] else [acc.reverse]
  | c :: cs, acc =>
    if isWs c then
      if acc.isEmpty then splitWsAux cs [] else acc.reverse :: splitWsAux cs []
    else splitWsAux cs (c :: acc)

/-- Python `str.split()` with no argument: split on whitespace runs, no empty words. -/
def splitWs (l : List Char) : List (List Char) := splitWsAux l []

/-- Python `len(text.split())`. -/
def wordCount (s : String) : Nat := (splitWs s.data).length

/-- Python `' '.join(words)` on character lists. -/
def joinWords : List (List Char) → List Char
  | [] => []
  | [w] => w
  | w :: ws => w ++ ' ' :: joinWords ws

/-- Python `needle in hay.lower()` (case-insensitive substring containment,
needle lowercase). -/
def hasSubCI (needle : List Char) : List Char → Bool
  | [] => needle.isEmpty
  | c :: t => ciStarts needle (c :: t) || hasSubCI needle t

/-- Helper for Python `hay.count(needle)`: non-overlapping left-to-right count.
The fuel argument always equals the length of the list argument, which makes the
recursion structural. -/
def countSubAux (n : Char) (ns : List Char) : Nat → List Char → Nat
  | 0, _ => 0
  | _, [] => 0
  | fuel + 1, c :: t =>
    if ciStarts (n :: ns) (c :: t) then countSubAux n ns (fuel - ns.length) (t.drop ns.length) + 1
    else countSubAux n ns fuel t

/-- Python `hay.lower().count(needle)` for a nonempty lowercase needle. -/
def countSubStr (needle : String) (hay : List Char) : Nat :=
  match needle.data with
  | [] => 0
  | n :: ns => countSubAux n ns hay.length hay

/-- Python `s.endswith(suffix)`. -/
def endsWith (suffix s : String) : Bool := suffix.data.reverse.isPrefixOf s.data.reverse

/-- Model of `re.search`: try a start-anchored matcher at every position
(including the final empty suffix). -/
def searchAny (p : List Char → Bool) : List Char → Bool
  | [] => p []
  | c :: t => p (c :: t) || searchAny p t

/-- Regex fragment `\s+\d`: at least one whitespace character, then a digit. -/
def wsThenDigit (l : List Char) : Bool :=
  !(l.takeWhile isWs).isEmpty &&
    match l.dropWhile isWs with
    | c :: _ => c.isDigit
    | [] => false

/-- Lexicographic comparison of character lists by code point, the order Python
uses to compare strings. -/
def charListLe : List Char → List Char → Bool
  | [], _ => true
  | _ :: _, [] => false
  | a :: s, b :: t => if a < b then true else if b < a then false else charListLe s t

/-- One normalized text line (the record built per line by
`_extract_formatted_lines`); only the fields the core heuristics read are
modelled, the bounding box and per-span lists are dropped. -/
structure Line where
  text : String
  avgFontSize : ℚ
  isBold : Bool
  isItalic : Bool
deriving DecidableEq

/-- One page of `pages_data`: 1-based page number and its normalized lines. -/
structure Page where
  pageNum : Nat
  lines : List Line
deriving DecidableEq

/-- One outline entry as emitted by `_extract_headings_improved`. -/
structure HeadingEntry where
  level : String
  text : String
  page : Nat
deriving DecidableEq

/-- The dictionary returned by `_analyze_font_characteristics`. -/
structure FontStats where
  bodyFontSize : ℚ
  sizeThreshold : ℚ
  uniqueSizes : List ℚ
  allLines : List Line
deriving DecidableEq

/-- The dictionary returned by `extract_structure`. -/
structure ExtractionResult where
  title : String
  outline : List HeadingEntry
deriving DecidableEq

/-- Round a rational to the nearest integer, halves to even (Python `round`). -/
def roundHalfEven (q : ℚ) : ℤ :=
  let n := q.floor
  let f := q - (n : ℚ)
  if f < Rat.divInt 1 2 then n
  else if Rat.divInt 1 2 < f then n + 1
  else if n % 2 = 0 then n else n + 1

/-- Python `round(x, 1)`. -/
def round1 (q : ℚ) : ℚ := Rat.divInt (roundHalfEven (q * 10)) 10

/-- First-encountered maximiser of `cnt`, the tie behaviour of
`Counter.most_common(1)` (which keeps the first-inserted key among equal
counts, and insertion order is first-occurrence order of the counted list). -/
def pickFirstMax (cnt : ℚ → Nat) : ℚ → List ℚ → ℚ
  | best, [] => best
  | best, k :: ks => pickFirstMax cnt (if cnt best < cnt k then k else best) ks

/-- The lines whose stripped text is longer than 3 characters, document-wide
(the collection loop of `_analyze_font_characteristics`). -/
def qualifyingLines (pages : List Page) : List Line :=
  pages.flatMap fun p => p.lines.filter fun l => 3 < (trimStr l.text).length

/-- The rounded average font sizes entering the body-size histogram. -/
def qualifyingSizes (pages : List Page) : List ℚ :=
  (qualifyingLines pages).map fun l => round1 l.avgFontSize

/-- Descending stable sort of rationals, for `sorted(..., reverse=True)`. -/
def sortedDescQ (l : List ℚ) : List ℚ := List.insertionSort (fun a b => b ≤ a) l

/-- Model of `_analyze_font_characteristics`: body font size is the most common
rounded average size of the qualifying lines (12.0 on an empty histogram), and
`size_threshold` is `body_font_size + 0.5`. -/
def analyze_font_characteristics (pages : List Page) : FontStats :=
  let rounded := qualifyingSizes pages
  let body : ℚ :=
    match rounded with
    | [] => 12
    | x :: xs => pickFirstMax (fun y => (x :: xs).count y) x xs
  { bodyFontSize := body
    sizeThreshold := body + Rat.divInt 1 2
    uniqueSizes := sortedDescQ rounded.dedup
    allLines := qualifyingLines pages }

/-- Keyword set of the title selector (`_extract_title_improved`). -/
def titleKeywords : List String :=
  ["overview", "foundation", "extension", "level", "introduction", "guide", "manual"]

/-- Python `any(word in text.lower() for word in titleKeywords)`. -/
def hasTitleKeyword (text : String) : Bool :=
  titleKeywords.any fun w => hasSubCI w.data text.data

/-- Skip filter of the title-candidate loop.  The last Python condition,
`'page' in text.lower() and text.lower().count('page') > 0`, is equivalent to
plain containment of `"page"`. -/
def skipTitleLine (text : String) : Bool :=
  let cs := text.data
  text.isEmpty || text.length < 3 || (!cs.isEmpty && cs.all Char.isDigit) ||
  hasSubCI "copyright".data cs || hasSubCI "version".data cs || cs.contains '©' ||
  hasSubCI "page".data cs

/-- Title score of one surviving candidate line: size bonus, bold bonus,
position bonus, length bonus, keyword bonus, added in source order. -/
def titleScore (line : Line) (text : String) (i : Nat) (body : ℚ) : ℚ :=
  (if body < line.avgFontSize then (line.avgFontSize - body) * 5 else 0) +
  (if line.isBold then 10 else 0) +
  (if i ≤ 5 then 15 - 2 * (i : ℚ) else 0) +
  (let wc := wordCount text
   if 2 ≤ wc ∧ wc ≤ 6 then 15 else if wc = 1 then 5 else 0) +
  (if hasTitleKeyword text then 20 else 0)

/-- The `(score, text, index)` candidates drawn from the first 10 lines of page 1. -/
def titleCandidates (lines : List Line) (body : ℚ) : List (ℚ × String × Nat) :=
  (lines.take 10).enum.filterMap fun p =>
    let text := trimStr p.2.text
    if skipTitleLine text then none else some (titleScore p.2 text p.1 body, text, p.1)

/-- Neighbour absorption test of `_extract_title_improved` for the line at
index `checkIdx` relative to the chosen line at index `bestIdx`. -/
def neighborPart (lines : List Line) (bestIdx checkIdx : Nat) : Option String :=
  match lines[checkIdx]?, lines[bestIdx]? with
  | some cl, some bl =>
    let ct := trimStr cl.text
    if ct ≠ "" ∧ |cl.avgFontSize - bl.avgFontSize| < 2 ∧
        hasTitleKeyword ct = true ∧ wordCount ct ≤ 8 then
      some ct
    else none
  | _, _ => none

/-- The combined title parts: a matching previous neighbour prepends, a
matching next neighbour appends (`for offset in [-1, 1]`). -/
def extendParts (lines : List Line) (bestIdx : Nat) (titleText : String) : List String :=
  let pre := if 1 ≤ bestIdx then neighborPart lines bestIdx (bestIdx - 1) else none
  let post := neighborPart lines bestIdx (bestIdx + 1)
  pre.toList ++ [titleText] ++ post.toList

/-- Python `' '.join(parts)` on strings. -/
def joinStrs (parts : List String) : String :=
  String.mk (joinWords (parts.map String.data))

/-- Order used to sort title candidates: score descending
(`sort(key=lambda x: x[0], reverse=True)`, a stable sort). -/
def scoreGe (a b : ℚ × String × Nat) : Prop := b.1 ≤ a.1

instance : DecidableRel scoreGe := fun a b => by unfold scoreGe; infer_instance

/-- Model of `_extract_title_improved`. -/
def extract_title_improved (firstPage : Page) (fontStats : FontStats) : String :=
  let lines := firstPage.lines
  let cands := titleCandidates lines fontStats.bodyFontSize
  match List.insertionSort scoreGe cands with
  | [] => "Document Title"
  | best :: _ => trimStr (joinStrs (extendParts lines best.2.2 best.2.1))

/-- Matcher for a heading pattern `^(PHRASE)\s*$` under `re.IGNORECASE`; the
phrase is given lowercase. -/
def exactPhrase (phrase : String) (l : List Char) : Bool :=
  ciStarts phrase.data l && (l.drop phrase.data.length).all isWs

/-- Strip one expected literal character, or fail. -/
def afterChar (ch : Char) : List Char → Option (List Char)
  | c :: t => if c == ch then some t else none
  | [] => none

/-- Regex fragment `[A-Z][^.]*$` under `re.IGNORECASE`: one ASCII letter, then
no period up to the end. -/
def letterThenNoDot : List Char → Bool
  | c :: rest => c.isAlpha && rest.all (· != '.')
  | [] => false

/-- Matcher for `^\d+\.\s+[A-Z][^.]*$` (under `re.IGNORECASE`, `[A-Z]` accepts
any ASCII letter). -/
def patNumDot (l : List Char) : Bool :=
  !(l.takeWhile Char.isDigit).isEmpty &&
    match afterChar '.' (l.dropWhile Char.isDigit) with
    | some r =>
      !(r.takeWhile isWs).isEmpty && letterThenNoDot (r.dropWhile isWs)
    | none => false

/-- Matcher for `^\d+\.\d+\s+[A-Z][^.]*$`. -/
def patSubNumDot (l : List Char) : Bool :=
  !(l.takeWhile Char.isDigit).isEmpty &&
    match afterChar '.' (l.dropWhile Char.isDigit) with
    | some r =>
      !(r.takeWhile Char.isDigit).isEmpty &&
        (let r2 := r.dropWhile Char.isDigit
         !(r2.takeWhile isWs).isEmpty && letterThenNoDot (r2.dropWhile isWs))
    | none => false

/-- Matcher for `^\d+\s+(References)\s*$`. -/
def patNumReferences (l : List Char) : Bool :=
  !(l.takeWhile Char.isDigit).isEmpty &&
    (let r := l.dropWhile Char.isDigit
     !(r.takeWhile isWs).isEmpty &&
       (let r2 := r.dropWhile isWs
        ciStarts "references".data r2 && (r2.drop "references".data.length).all isWs))

/-- Matcher for the prefix patterns `^Chapter\s+\d+` and `^Section\s+\d+`
(`re.match` only anchors the start). -/
def patWordNum (word : String) (l : List Char) : Bool :=
  ciStarts word.data l && wsThenDigit (l.drop word.data.length)

/-- Level test `re.match(r'^\d+\.\d+', text)` deciding H2 versus H1. -/
def subNumLevel (l : List Char) : Bool :=
  !(l.takeWhile Char.isDigit).isEmpty &&
    match afterChar '.' (l.dropWhile Char.isDigit) with
    | some r => !(r.takeWhile Char.isDigit).isEmpty
    | none => false

/-- Disjunction of the fixed `heading_patterns` table, each matched with
`re.match(..., re.IGNORECASE)`. -/
def matchesAnyPattern (text : String) : Bool :=
  let cs := text.data
  exactPhrase "revision history" cs || exactPhrase "table of contents" cs ||
  exactPhrase "acknowledgements" cs || exactPhrase "abstract" cs ||
  exactPhrase "introduction" cs || exactPhrase "conclusion" cs ||
  exactPhrase "summary" cs || exactPhrase "references" cs ||
  exactPhrase "bibliography" cs || exactPhrase "appendix" cs ||
  patNumDot cs || patSubNumDot cs || patNumReferences cs ||
  patWordNum "chapter" cs || patWordNum "section" cs

/-- Exclusion `re.search(word + '\s+\d+', text, re.IGNORECASE)` for
`page` and `version`. -/
def searchWordNum (word : String) (l : List Char) : Bool :=
  searchAny (fun s => ciStarts word.data s && wsThenDigit (s.drop word.data.length)) l

/-- Regex fragment `.*W`: any characters other than a newline, then `W`. -/
def dotStarThen (w : List Char) : List Char → Bool
  | [] => w.isEmpty
  | c :: t => ciStarts w (c :: t) || (c != '\n' && dotStarThen w t)

/-- Exclusion `re.search(r'©.*copyright', text, re.IGNORECASE)`. -/
def searchCopyrightMark (l : List Char) : Bool :=
  searchAny
    (fun s =>
      match s with
      | c :: t => c == '©' && dotStarThen "copyright".data t
      | [] => false)
    l

/-- Exclusion `re.search(r'http[s]?://', text, re.IGNORECASE)`. -/
def searchHttp (l : List Char) : Bool :=
  searchAny (fun s => ciStarts "http://".data s || ciStarts "https://".data s) l

/-- Model of `_is_valid_heading_candidate` (only the text argument is read). -/
def is_valid_heading_candidate (text : String) : Bool :=
  let cs := text.data
  if text.length < 3 || 150 < text.length then false
  else if (!cs.isEmpty && cs.all Char.isDigit) || searchWordNum "page" cs ||
      searchCopyrightMark cs || hasSubCI "www.".data cs ||
      searchWordNum "version" cs || hasSubCI "email".data cs || cs.contains '@' ||
      searchHttp cs then false
  else if 15 < wordCount text then false
  else if 2 < countSubStr "the " cs || 1 < countSubStr " and " cs ||
      (endsWith "." text && 8 < wordCount text) then false
  else true

/-- Model of `_is_duplicate_heading`. -/
def is_duplicate_heading (text : String) (headings : List HeadingEntry) : Bool :=
  headings.any fun h => h.text == text

/-- Regex `\w` (ASCII model: letter, digit or underscore). -/
def isWordChar (c : Char) : Bool := c.isAlphanum || c == '_'

/-- Search for the abbreviation shape `\w\.\w`. -/
def hasWDW : List Char → Bool
  | a :: b :: c :: rest => (isWordChar a && b == '.' && isWordChar c) || hasWDW (b :: c :: rest)
  | _ => false

/-- Python `' '.join(text.split())`. -/
def collapseWs (s : String) : String := String.mk (joinWords (splitWs s.data))

/-- Python `text.rstrip('.')`: remove every trailing period. -/
def rstripDots (l : List Char) : List Char := (l.reverse.dropWhile (· == '.')).reverse

/-- Model of `_clean_heading_text`. -/
def clean_heading_text (s : String) : String :=
  let t := collapseWs s
  let t2 :=
    if wordCount t ≤ 8 && !endsWith "..." t && endsWith "." t && !hasWDW t.data then
      String.mk (rstripDots t.data)
    else t
  trimStr t2

/-- Stop words of the bold-heading fallback check. -/
def boldStopWords : List String := ["the", "and", "or", "but", "with", "from"]

/-- Classification step of `_extract_headings_improved` for one candidate line:
the pattern table first (sub-numbered level test deciding H2, every other
pattern H1), then the font-size fallback, then the bold fallback. -/
def classifyLine (body : ℚ) (line : Line) (text : String) : Option String :=
  if matchesAnyPattern text then
    if subNumLevel text.data then some "H2" else some "H1"
  else if body + 2 < line.avgFontSize then
    if body + 4 < line.avgFontSize then some "H1" else some "H2"
  else if line.isBold && decide (body + Rat.divInt 1 2 < line.avgFontSize) then
    if wordCount text ≤ 10 &&
        !(boldStopWords.any fun w => hasSubCI w.data text.data) &&
        (match text.data with | c :: _ => c.isUpper | [] => false) then
      some "H2"
    else none
  else none

/-- The entry a line contributes before duplicate filtering: validity filter,
classification, cleaning and the final length check of
`_extract_headings_improved`. -/
def lineEntry (body : ℚ) (pageNum : Nat) (line : Line) : Option HeadingEntry :=
  let text := trimStr line.text
  if is_valid_heading_candidate text then
    match classifyLine body line text with
    | some lvl =>
      let ct := clean_heading_text text
      if ct ≠ "" ∧ 2 < ct.length then some { level := lvl, text := ct, page := pageNum }
      else none
    | none => none
  else none

/-- One iteration of the accumulation loop of `_extract_headings_improved`:
append the line's entry unless its cleaned text is already present. -/
def processLine (body : ℚ) (pageNum : Nat) (acc : List HeadingEntry) (line : Line) :
    List HeadingEntry :=
  match lineEntry body pageNum line with
  | some e => if is_duplicate_heading e.text acc then acc else acc ++ [e]
  | none => acc

/-- Final sort key order of `_extract_headings_improved`:
`key=lambda x: (x['page'], x['text'])` ascending. -/
def outlineLe (a b : HeadingEntry) : Prop :=
  a.page < b.page ∨ (a.page = b.page ∧ charListLe a.text.data b.text.data = true)

instance : DecidableRel outlineLe := fun a b => by unfold outlineLe; infer_instance

/-- Model of `_extract_headings_improved`. -/
def extract_headings_improved (pages : List Page) (fontStats : FontStats) :
    List HeadingEntry :=
  let body := fontStats.bodyFontSize
  let headings :=
    pages.foldl (fun acc p => p.lines.foldl (fun a l => processLine body p.pageNum a l) acc) []
  List.insertionSort outlineLe headings

/-- All entries the scan would generate with the duplicate filter switched off,
in page-then-line scan order. -/
def headingOccurrences (body : ℚ) (pages : List Page) : List HeadingEntry :=
  pages.flatMap fun p => p.lines.filterMap (lineEntry body p.pageNum)

/-- Pages as the decoding loop of `extract_structure` builds them: 1-based
numbering in input order. -/
def numberPages (pagesLines : List (List Line)) : List Page :=
  pagesLines.enum.map fun p => { pageNum := p.1 + 1, lines := p.2 }

/-- Body of the `try` block of `extract_structure` over already-decoded pages,
with its one partial operation (`pages_data[0]` on an empty page list) made
explicit in `Except`. -/
def extract_structure_body (pagesLines : List (List Line)) : Except String ExtractionResult :=
  let pages := numberPages pagesLines
  let fontStats := analyze_font_characteristics pages
  match pages with
  | [] => Except.error "IndexError: list index out of range"
  | p0 :: _ =>
    Except.ok
      { title := extract_title_improved p0 fontStats
        outline := extract_headings_improved pages fontStats }

/-- Model of `extract_structure`: any fault in the body is caught and converted
to the sentinel error result. -/
def extract_structure (pagesLines : List (List Line)) : ExtractionResult :=
  match extract_structure_body pagesLines with
  | Except.ok r => r
  | Except.error _ => { title := "Error extracting title", outline := [] }

/-- Statement-side rendering of the cleaning contract: after whitespace
collapsing, exactly under the stated conditions (at most 8 words, no ellipsis
ending, a trailing period, no abbreviation shape) every trailing period is
stripped, together with any whitespace this exposes at the edges; otherwise the
collapsed text is returned unchanged. -/
def cleanHeadingTextStated (s : String) : String :=
  let c := collapseWs s
  if wordCount c ≤ 8 ∧ endsWith "..." c = false ∧ endsWith "." c = true ∧
      hasWDW c.data = false then
    trimStr (String.mk (rstripDots c.data))
  else c

/-- C1: whenever the extraction body faults — in particular on the empty page
list, where the first-page access fails — `extract_structure` returns the
sentinel result with title "Error extracting title" and an empty outline
instead of propagating the fault. -/
theorem extract_structure_error_sentinel :
    (∀ (pagesLines : List (List Line)) (e : String),
        extract_structure_body pagesLines = Except.error e →
        extract_structure pagesLines =
          { title := "Error extracting title", outline := [] }) ∧
    extract_structure [] = { title := "Error extracting title", outline := [] } := by
  constructor
  · intro pagesLines e h
    unfold extract_structure
    rw [h]
  · rfl

/-- Witness for C1 at the empty page list. -/
theorem extract_structure_error_sentinel_witness :
    extract_structure [] = { title := "Error extracting title", outline := [] } :=
  extract_structure_error_sentinel.1 [] "IndexError: list index out of range" rfl

/-- C5: a line whose stripped text is exactly "Revision History" passes the
candidate filter and is classified H1 by the pattern table, whatever the body
size and the line's font metrics are. -/
theorem revision_history_h1 (body : ℚ) (line : Line)
    (h : trimStr line.text = "Revision History") :
    is_valid_heading_candidate (trimStr line.text) = true ∧
    classifyLine body line (trimStr line.text) = some "H1" := by
  rw [h]
  refine ⟨by with_unfolding_all decide, ?_⟩
  have hm : matchesAnyPattern "Revision History" = true := by with_unfolding_all decide
  have hs : subNumLevel "Revision History".data = false := by with_unfolding_all decide
  simp [classifyLine, hm, hs]

/-- Witness for C5: a small-font, non-bold "Revision History" line. -/
theorem revision_history_h1_witness :
    is_valid_heading_candidate (trimStr "Revision History") = true ∧
    classifyLine 12
      { text := "Revision History", avgFontSize := 9, isBold := false, isItalic := false }
      (trimStr "Revision History") = some "H1" :=
  revision_history_h1 12
    { text := "Revision History", avgFontSize := 9, isBold := false, isItalic := false } rfl

/-- The full sub-numbered pattern `^\d+\.\d+\s+[A-Z][^.]*$` forces the prefix
level test `^\d+\.\d+`. -/
theorem subNumLevel_of_patSubNumDot (l : List Char) (h : patSubNumDot l = true) :
    subNumLevel l = true := by
  simp only [patSubNumDot, Bool.and_eq_true] at h
  obtain ⟨h1, h2⟩ := h
  simp only [subNumLevel, Bool.and_eq_true]
  refine ⟨h1, ?_⟩
  cases hd : afterChar '.' (l.dropWhile Char.isDigit) with
  | none => rw [hd] at h2; exact absurd h2 (by simp)
  | some r =>
    rw [hd] at h2
    simp only [Bool.and_eq_true] at h2
    exact h2.1

/-- C6: a candidate line matching the sub-numbered pattern is classified H2 —
the `^\d+\.\d+` level test has precedence over the bare-number H1 level — and
the concrete line "1.1 Intended Audience" on page 2 with average size one point
above a 12.0 body yields exactly the entry (H2, "1.1 Intended Audience", 2),
text unchanged. -/
theorem sub_numbered_heading_h2 :
    (∀ (body : ℚ) (line : Line),
        patSubNumDot (trimStr line.text).data = true →
        classifyLine body line (trimStr line.text) = some "H2") ∧
    extract_headings_improved
      [{ pageNum := 2,
         lines := [{ text := "1.1 Intended Audience", avgFontSize := 13, isBold := false,
                     isItalic := false }] }]
      { bodyFontSize := 12, sizeThreshold := Rat.divInt 25 2, uniqueSizes := [12],
        allLines := [] }
      = [{ level := "H2", text := "1.1 Intended Audience", page := 2 }] := by
  refine ⟨?_, by with_unfolding_all decide⟩
  intro body line hpat
  have hm : matchesAnyPattern (trimStr line.text) = true := by
    simp [matchesAnyPattern, hpat]
  have hl : subNumLevel (trimStr line.text).data = true :=
    subNumLevel_of_patSubNumDot _ hpat
  simp [classifyLine, hm, hl]

/-- Witness for C6 on the line "1.1 Intended Audience". -/
theorem sub_numbered_heading_h2_witness :
    classifyLine 12
      { text := "1.1 Intended Audience", avgFontSize := 13, isBold := false, isItalic := false }
      (trimStr "1.1 Intended Audience") = some "H2" :=
  sub_numbered_heading_h2.1 12
    { text := "1.1 Intended Audience", avgFontSize := 13, isBold := false, isItalic := false }
    (by with_unfolding_all decide)

/-- C9: a line whose stripped text has more than 15 words fails the candidate
filter, so the scan leaves the accumulated outline unchanged no matter what
the line's font metrics are. -/
theorem long_prose_line_rejected (body : ℚ) (pageNum : Nat) (acc : List HeadingEntry)
    (line : Line) (h : 15 < wordCount (trimStr line.text)) :
    is_valid_heading_candidate (trimStr line.text) = false ∧
    processLine body pageNum acc line = acc := by
  have hf : is_valid_heading_candidate (trimStr line.text) = false := by
    simp only [is_valid_heading_candidate]
    split
    · rfl
    split
    · rfl
    · rfl
  refine ⟨hf, ?_⟩
  simp [processLine, lineEntry, hf]

/-- Witness for C9: a 20-word large-font bold sentence ending in a period. -/
theorem long_prose_line_rejected_witness :
    15 < wordCount (trimStr "one two three four five six seven eight nine ten one two three four five six seven eight nine ten more.") ∧
    processLine 12 1 []
      { text := "one two three four five six seven eight nine ten one two three four five six seven eight nine ten more.",
        avgFontSize := 15, isBold := true, isItalic := false } = [] :=
  ⟨by with_unfolding_all decide,
   (long_prose_line_rejected 12 1 []
     { text := "one two three four five six seven eight nine ten one two three four five six seven eight nine ten more.",
       avgFontSize := 15, isBold := true, isItalic := false }
     (by with_unfolding_all decide)).2⟩

/-- Words produced by the split helper are nonempty and whitespace-free. -/
theorem splitWsAux_words (l : List Char) :
    ∀ (acc : List Char), (∀ c ∈ acc, isWs c = false) →
      ∀ w ∈ splitWsAux l acc, w ≠ [] ∧ ∀ c ∈ w, isWs c = false := by
  induction l with
  | nil =>
    intro acc hacc w hw
    by_cases hne : acc.isEmpty = true
    · simp [splitWsAux, hne] at hw
    · simp [splitWsAux, hne] at hw
      subst hw
      refine ⟨?_, fun c hc => hacc c (List.mem_reverse.mp hc)⟩
      rw [Ne, List.reverse_eq_nil_iff]
      intro h0
      exact hne (by simp [h0])
  | cons c cs ih =>
    intro acc hacc w hw
    by_cases hc : isWs c = true
    · by_cases hne : acc.isEmpty = true
      · simp only [splitWsAux] at hw
        rw [if_pos hc, if_pos hne] at hw
        exact ih [] (by simp) w hw
      · simp only [splitWsAux] at hw
        rw [if_pos hc, if_neg hne] at hw
        rcases List.mem_cons.mp hw with hw | hw
        · subst hw
          refine ⟨?_, fun x hx => hacc x (List.mem_reverse.mp hx)⟩
          rw [Ne, List.reverse_eq_nil_iff]
          intro h0
          exact hne (by simp [h0])
        · exact ih [] (by simp) w hw
    · simp only [splitWsAux] at hw
      rw [if_neg hc] at hw
      refine ih (c :: acc) ?_ w hw
      intro x hx
      rcases List.mem_cons.mp hx with hx | hx
      · subst hx
        simpa using hc
      · exact hacc x hx

/-- Words of Python `text.split()` are nonempty and whitespace-free. -/
theorem splitWs_words (l : List Char) :
    ∀ w ∈ splitWs l, w ≠ [] ∧ ∀ c ∈ w, isWs c = false :=
  splitWsAux_words l [] (by simp)

/-- A join of nonempty words is nonempty. -/
theorem joinWords_ne_nil (w : List Char) (ws : List (List Char)) (hw : w ≠ []) :
    joinWords (w :: ws) ≠ [] := by
  cases ws with
  | nil => simpa [joinWords] using hw
  | cons v vs =>
    show w ++ ' ' :: joinWords (v :: vs) ≠ []
    simp [List.append_eq_nil]

/-- The first character of a join is the first character of the first word. -/
theorem joinWords_head? (w : List Char) (ws : List (List Char)) (hw : w ≠ []) :
    (joinWords (w :: ws)).head? = w.head? := by
  cases ws with
  | nil => rfl
  | cons v vs =>
    show (w ++ ' ' :: joinWords (v :: vs)).head? = w.head?
    rw [List.head?_append]
    cases w with
    | nil => exact absurd rfl hw
    | cons a t => rfl

/-- The last character of a join of nonempty whitespace-free words is not
whitespace. -/
theorem joinWords_getLast_not_ws (w : List Char) (ws : List (List Char))
    (hw : ∀ u ∈ w :: ws, u ≠ [] ∧ ∀ c ∈ u, isWs c = false) :
    ∃ c, (joinWords (w :: ws)).getLast? = some c ∧ isWs c = false := by
  induction ws generalizing w with
  | nil =>
    obtain ⟨hne, hcs⟩ := hw w (by simp)
    cases hl : w.getLast? with
    | none => exact absurd (List.getLast?_eq_none_iff.mp hl) hne
    | some c =>
      exact ⟨c, by simpa [joinWords] using hl,
        hcs c (List.mem_of_mem_getLast? (hl ▸ rfl))⟩
  | cons v vs ih =>
    obtain ⟨c, hc1, hc2⟩ := ih v (fun u hu => hw u (by simp [List.mem_cons.mp hu]))
    refine ⟨c, ?_, hc2⟩
    show (w ++ ' ' :: joinWords (v :: vs)).getLast? = some c
    rw [List.getLast?_append]
    have h2 : joinWords (v :: vs) ≠ [] :=
      joinWords_ne_nil v vs (hw v (by simp)).1
    have h3 : (' ' :: joinWords (v :: vs)).getLast? = some c := by
      cases hj : joinWords (v :: vs) with
      | nil => exact absurd hj h2
      | cons x xs =>
        rw [hj] at hc1
        rw [List.getLast?_cons_cons]
        exact hc1
    rw [h3]
    rfl

/-- A list whose first and last characters are not whitespace is its own trim. -/
theorem trimChars_eq_self (l : List Char)
    (hh : ∀ c, l.head? = some c → isWs c = false)
    (hl : ∀ c, l.getLast? = some c → isWs c = false) :
    trimChars l = l := by
  unfold trimChars
  have h1 : l.dropWhile isWs = l := by
    cases l with
    | nil => rfl
    | cons a t =>
      rw [List.dropWhile_cons, hh a rfl]
      simp
  rw [h1]
  have h2 : l.reverse.dropWhile isWs = l.reverse := by
    cases hr : l.reverse with
    | nil => rfl
    | cons a t =>
      have ha : l.getLast? = some a := by
        rw [← List.head?_reverse, hr]
        rfl
      rw [List.dropWhile_cons, hl a ha]
      simp
  rw [h2, List.reverse_reverse]

/-- Whitespace collapsing already produces a both-ends-trimmed string, so the
final `strip()` of the cleaning step is the identity on it. -/
theorem trimStr_collapseWs (s : String) : trimStr (collapseWs s) = collapseWs s := by
  unfold trimStr collapseWs
  congr 1
  apply trimChars_eq_self
  · intro c hc
    cases hs : splitWs s.data with
    | nil => rw [hs] at hc; simp [joinWords] at hc
    | cons w ws =>
      rw [hs] at hc
      obtain ⟨hne, hcs⟩ := splitWs_words s.data w (hs ▸ by simp)
      rw [joinWords_head? w ws hne] at hc
      exact hcs c (List.mem_of_mem_head? (hc ▸ rfl))
  · intro c hc
    cases hs : splitWs s.data with
    | nil => rw [hs] at hc; simp [joinWords] at hc
    | cons w ws =>
      rw [hs] at hc
      obtain ⟨c', hc1, hc2⟩ :=
        joinWords_getLast_not_ws w ws (fun u hu => splitWs_words s.data u (hs ▸ hu))
      rw [hc1] at hc
      cases hc
      exact hc2

/-- C7 (amended): the cleaning step collapses whitespace runs to single spaces
and, exactly when the collapsed text has at most 8 words, does not end in an
ellipsis, ends in a period and has no letter-period-letter abbreviation shape,
strips ALL trailing periods (plus any whitespace this exposes at the edges);
otherwise the text is unchanged beyond the collapsing. -/
theorem clean_heading_text_characterization (s : String) :
    clean_heading_text s = cleanHeadingTextStated s := by
  unfold clean_heading_text cleanHeadingTextStated
  by_cases h : wordCount (collapseWs s) ≤ 8 ∧ endsWith "..." (collapseWs s) = false ∧
      endsWith "." (collapseWs s) = true ∧ hasWDW (collapseWs s).data = false
  · rw [if_pos h]
    obtain ⟨h1, h2, h3, h4⟩ := h
    simp [h1, h2, h3, h4]
  · rw [if_neg h]
    have hb : (decide (wordCount (collapseWs s) ≤ 8) && !endsWith "..." (collapseWs s) &&
        endsWith "." (collapseWs s) && !hasWDW (collapseWs s).data) = false := by
      by_contra hb0
      rw [Bool.not_eq_false] at hb0
      apply h
      simp only [Bool.and_eq_true, Bool.not_eq_true', decide_eq_true_eq] at hb0
      tauto
    simp only [hb]
    simp
    exact trimStr_collapseWs s

/-- C7 counterexample: on the valid heading candidate "Intro.." all the stated
stripping conditions hold, yet the code removes BOTH trailing periods; stripping
a single trailing period would give "Intro.", while the code yields "Intro". -/
theorem clean_heading_single_period_cex :
    is_valid_heading_candidate "Intro.." = true ∧
    collapseWs "Intro.." = "Intro.." ∧
    wordCount "Intro.." ≤ 8 ∧
    endsWith "..." "Intro.." = false ∧
    endsWith "." "Intro.." = true ∧
    hasWDW "Intro..".data = false ∧
    clean_heading_text "Intro.." = "Intro" ∧
    clean_heading_text "Intro.." ≠ "Intro." := by
  with_unfolding_all decide

/-- The first-max fold returns an element of `best :: ks`. -/
theorem pickFirstMax_mem (cnt : ℚ → Nat) (best : ℚ) (ks : List ℚ) :
    pickFirstMax cnt best ks ∈ best :: ks := by
  induction ks generalizing best with
  | nil => simp [pickFirstMax]
  | cons k ks' ih =>
    rw [pickFirstMax]
    rcases List.mem_cons.mp (ih (if cnt best < cnt k then k else best)) with h | h
    · rw [h]
      split
      · exact List.mem_cons_of_mem _ (List.mem_cons_self _ _)
      · exact List.mem_cons_self _ _
    · exact List.mem_cons_of_mem _ (List.mem_cons_of_mem _ h)

/-- The first-max fold maximises `cnt` over `best :: ks`. -/
theorem pickFirstMax_le (cnt : ℚ → Nat) (best : ℚ) (ks : List ℚ) :
    ∀ y ∈ best :: ks, cnt y ≤ cnt (pickFirstMax cnt best ks) := by
  induction ks generalizing best with
  | nil =>
    intro y hy
    rw [List.mem_singleton] at hy
    subst hy
    simp [pickFirstMax]
  | cons k ks' ih =>
    intro y hy
    rw [pickFirstMax]
    have hb' : cnt best ≤ cnt (if cnt best < cnt k then k else best) := by
      split
      next h => omega
      next h => exact Nat.le_refl _
    have hk' : cnt k ≤ cnt (if cnt best < cnt k then k else best) := by
      split
      next h => exact Nat.le_refl _
      next h => omega
    have hrec := ih (if cnt best < cnt k then k else best)
    rcases List.mem_cons.mp hy with hy | hy
    · subst hy
      exact le_trans hb' (hrec _ (List.mem_cons_self _ _))
    rcases List.mem_cons.mp hy with hy | hy
    · subst hy
      exact le_trans hk' (hrec _ (List.mem_cons_self _ _))
    · exact hrec y (List.mem_cons_of_mem _ hy)

/-- Everything placed before the first-max fold's result in the scanned list
has a strictly smaller count: the fold keeps the FIRST maximiser. -/
theorem pickFirstMax_decomp (cnt : ℚ → Nat) (best : ℚ) (ks : List ℚ) :
    ∃ pre post, best :: ks = pre ++ pickFirstMax cnt best ks :: post ∧
      ∀ y ∈ pre, cnt y < cnt (pickFirstMax cnt best ks) := by
  induction ks generalizing best with
  | nil => exact ⟨[], [], rfl, by simp⟩
  | cons k ks' ih =>
    rw [pickFirstMax]
    obtain ⟨pre, post, heq, hlt⟩ := ih (if cnt best < cnt k then k else best)
    by_cases hbk : cnt best < cnt k
    · rw [if_pos hbk] at heq hlt ⊢
      refine ⟨best :: pre, post, ?_, ?_⟩
      · rw [List.cons_append, ← heq]
      · intro y hy
        rcases List.mem_cons.mp hy with hy | hy
        · subst hy
          exact lt_of_lt_of_le hbk (pickFirstMax_le cnt k ks' k (List.mem_cons_self _ _))
        · exact hlt y hy
    · rw [if_neg hbk] at heq hlt ⊢
      cases pre with
      | nil =>
        rw [List.nil_append, List.cons.injEq] at heq
        obtain ⟨h1, h2⟩ := heq
        exact ⟨[], k :: ks', by rw [List.nil_append, ← h1], by simp⟩
      | cons p pre' =>
        rw [List.cons_append, List.cons.injEq] at heq
        obtain ⟨h1, h2⟩ := heq
        refine ⟨best :: k :: pre', post, ?_, ?_⟩
        · rw [List.cons_append, List.cons_append, ← h2]
        · intro y hy
          have hbestlt : cnt best < cnt (pickFirstMax cnt best ks') := by
            have := hlt p (List.mem_cons_self _ _)
            rw [← h1] at this
            exact this
          rcases List.mem_cons.mp hy with hy | hy
          · subst hy
            exact hbestlt
          rcases List.mem_cons.mp hy with hy | hy
          · subst hy
            omega
          · exact hlt y (List.mem_cons_of_mem _ hy)

/-- An element's index in `pre ++ rest` is at least the length of `pre` when
it does not occur in `pre`. -/
theorem indexOf_ge_of_forward (y : ℚ) (pre rest : List ℚ) (hy : y ∉ pre) :
    pre.length ≤ (pre ++ rest).indexOf y := by
  induction pre with
  | nil => simp
  | cons p pre' ih =>
    rw [List.cons_append, List.indexOf_cons]
    have hpy : (p == y) = false := by
      simp only [beq_eq_false_iff_ne, ne_eq]
      intro h
      exact hy (h ▸ List.mem_cons_self _ _)
    rw [hpy]
    simp only [cond_false, List.length_cons]
    have := ih (fun h => hy (List.mem_cons_of_mem _ h))
    omega

/-- The index of `b` in `pre ++ b :: post` is exactly the length of `pre` when
`b` does not occur in `pre`. -/
theorem indexOf_append_self (b : ℚ) (pre post : List ℚ) (hb : b ∉ pre) :
    (pre ++ b :: post).indexOf b = pre.length := by
  induction pre with
  | nil => simp [List.indexOf_cons]
  | cons p pre' ih =>
    rw [List.cons_append, List.indexOf_cons]
    have hpb : (p == b) = false := by
      simp only [beq_eq_false_iff_ne, ne_eq]
      intro h
      exact hb (h ▸ List.mem_cons_self _ _)
    rw [hpb]
    simp only [cond_false, List.length_cons]
    rw [ih (fun h => hb (List.mem_cons_of_mem _ h))]

/-- C2: `size_threshold` is always `body_font_size + 0.5`; on an empty
histogram the body size defaults to 12.0; otherwise the body size is a
qualifying rounded size of maximal multiplicity, and among the sizes of equal
maximal multiplicity it is the first-encountered one. -/
theorem body_font_size_mode (pages : List Page) :
    (analyze_font_characteristics pages).sizeThreshold =
      (analyze_font_characteristics pages).bodyFontSize + Rat.divInt 1 2 ∧
    (qualifyingSizes pages = [] →
      (analyze_font_characteristics pages).bodyFontSize = 12) ∧
    (qualifyingSizes pages ≠ [] →
      (analyze_font_characteristics pages).bodyFontSize ∈ qualifyingSizes pages ∧
      (∀ y ∈ qualifyingSizes pages,
        (qualifyingSizes pages).count y ≤
          (qualifyingSizes pages).count (analyze_font_characteristics pages).bodyFontSize) ∧
      (∀ y ∈ qualifyingSizes pages,
        (qualifyingSizes pages).count y =
          (qualifyingSizes pages).count (analyze_font_characteristics pages).bodyFontSize →
        (qualifyingSizes pages).indexOf (analyze_font_characteristics pages).bodyFontSize ≤
          (qualifyingSizes pages).indexOf y)) := by
  refine ⟨rfl, ?_, ?_⟩
  · intro hempty
    simp [analyze_font_characteristics, hempty]
  · intro hne
    cases hs : qualifyingSizes pages with
    | nil => exact absurd hs hne
    | cons x xs =>
      have hbody : (analyze_font_characteristics pages).bodyFontSize =
          pickFirstMax (fun y => (x :: xs).count y) x xs := by
        simp [analyze_font_characteristics, hs]
      rw [hbody]
      refine ⟨pickFirstMax_mem _ x xs, pickFirstMax_le _ x xs, ?_⟩
      obtain ⟨pre, post, heq, hlt⟩ := pickFirstMax_decomp (fun y => (x :: xs).count y) x xs
      intro y hy hcount
      have hrpre : pickFirstMax (fun y => (x :: xs).count y) x xs ∉ pre :=
        fun hmem => lt_irrefl _ (hlt _ hmem)
      have hypre : y ∉ pre := by
        intro hmem
        have h2 := hlt y hmem
        simp only at h2
        rw [hcount] at h2
        exact lt_irrefl _ h2
      generalize hgen : pickFirstMax (fun y => (x :: xs).count y) x xs = r at heq hrpre ⊢
      rw [heq, indexOf_append_self r pre post hrpre]
      exact indexOf_ge_of_forward y pre (r :: post) hypre

/-- Witness for C2: sizes 13, 12, 12, 13 tie at multiplicity two and the
first-encountered size 13 wins. -/
theorem body_font_size_mode_witness :
    qualifyingSizes
        [⟨1, [⟨"alpha line", 13, false, false⟩, ⟨"beta line", 12, false, false⟩,
              ⟨"gamma line", 12, false, false⟩, ⟨"delta line", 13, false, false⟩]⟩] ≠ [] ∧
    (analyze_font_characteristics
        [⟨1, [⟨"alpha line", 13, false, false⟩, ⟨"beta line", 12, false, false⟩,
              ⟨"gamma line", 12, false, false⟩, ⟨"delta line", 13, false, false⟩]⟩]).bodyFontSize
      ∈ qualifyingSizes
        [⟨1, [⟨"alpha line", 13, false, false⟩, ⟨"beta line", 12, false, false⟩,
              ⟨"gamma line", 12, false, false⟩, ⟨"delta line", 13, false, false⟩]⟩] :=
  ⟨by with_unfolding_all decide,
   ((body_font_size_mode
      [⟨1, [⟨"alpha line", 13, false, false⟩, ⟨"beta line", 12, false, false⟩,
            ⟨"gamma line", 12, false, false⟩, ⟨"delta line", 13, false, false⟩]⟩]).2.2
      (by with_unfolding_all decide)).1⟩

/-- The character-list order is total. -/
theorem charListLe_total (s t : List Char) : charListLe s t = true ∨ charListLe t s = true := by
  induction s generalizing t with
  | nil => left; rfl
  | cons a s' ih =>
    cases t with
    | nil => right; rfl
    | cons b t' =>
      by_cases hab : a < b
      · left
        simp [charListLe, hab]
      · by_cases hba : b < a
        · right
          simp [charListLe, hba]
        · rcases ih t' with h | h
          · left
            simp [charListLe, hab, hba, h]
          · right
            simp [charListLe, hab, hba, h]

/-- The character-list order is transitive. -/
theorem charListLe_trans :
    ∀ (s t u : List Char), charListLe s t = true → charListLe t u = true →
      charListLe s u = true := by
  intro s
  induction s with
  | nil => intro t u _ _; rfl
  | cons a s' ih =>
    intro t u h1 h2
    cases t with
    | nil => exact absurd h1 (by simp [charListLe])
    | cons b t' =>
      cases u with
      | nil => exact absurd h2 (by simp [charListLe])
      | cons c u' =>
        simp only [charListLe] at h1 h2 ⊢
        by_cases hab : a < b
        · by_cases hbc : b < c
          · rw [if_pos (hab.trans hbc)]
          · by_cases hcb : c < b
            · rw [if_neg hbc, if_pos hcb] at h2
              exact absurd h2 (by simp)
            · have hbc' : b = c := le_antisymm (le_of_not_lt hcb) (le_of_not_lt hbc)
              rw [if_pos (hbc' ▸ hab)]
        · by_cases hba : b < a
          · rw [if_neg hab, if_pos hba] at h1
            exact absurd h1 (by simp)
          · have hba' : a = b := le_antisymm (le_of_not_lt hba) (le_of_not_lt hab)
            subst hba'
            rw [if_neg hab, if_neg hba] at h1
            by_cases hac : a < c
            · rw [if_pos hac]
            · by_cases hca : c < a
              · rw [if_neg hac, if_pos hca] at h2
                exact absurd h2 (by simp)
              · rw [if_neg hac, if_neg hca] at h2 ⊢
                exact ih t' u' h1 h2

/-- The outline sort key order is total. -/
theorem outlineLe_total : ∀ a b : HeadingEntry, outlineLe a b ∨ outlineLe b a := by
  intro a b
  unfold outlineLe
  rcases Nat.lt_trichotomy a.page b.page with h | h | h
  · exact Or.inl (Or.inl h)
  · rcases charListLe_total a.text.data b.text.data with hc | hc
    · exact Or.inl (Or.inr ⟨h, hc⟩)
    · exact Or.inr (Or.inr ⟨h.symm, hc⟩)
  · exact Or.inr (Or.inl h)

/-- The outline sort key order is transitive. -/
theorem outlineLe_trans :
    ∀ a b c : HeadingEntry, outlineLe a b → outlineLe b c → outlineLe a c := by
  intro a b c hab hbc
  unfold outlineLe at hab hbc ⊢
  rcases hab with h1 | ⟨h1, h1'⟩ <;> rcases hbc with h2 | ⟨h2, h2'⟩
  · exact Or.inl (h1.trans h2)
  · exact Or.inl (h2 ▸ h1)
  · exact Or.inl (h1 ▸ h2)
  · exact Or.inr ⟨h1.trans h2, charListLe_trans _ _ _ h1' h2'⟩

/-- C3: the returned outline is sorted by the key (page, cleaned text): for any
entry placed before another, either its page is smaller, or the pages are equal
and its text is lexicographically at most the other's. -/
theorem outline_sorted_by_page_then_text (pages : List Page) (fontStats : FontStats) :
    (extract_headings_improved pages fontStats).Pairwise outlineLe := by
  unfold extract_headings_improved
  exact @List.sorted_insertionSort _ outlineLe _ ⟨outlineLe_total⟩ ⟨outlineLe_trans⟩ _

/-- Fold preservation of an arbitrary accumulator invariant. -/
theorem foldl_invariant {α β : Type} (P : β → Prop) (f : β → α → β) (l : List α)
    (b : β) (hb : P b) (hf : ∀ acc x, P acc → P (f acc x)) : P (l.foldl f b) := by
  induction l generalizing b with
  | nil => exact hb
  | cons x xs ih => exact ih _ (hf b x hb)

/-- A produced entry records the page it came from and carries a cleaned text
that is nonempty of length above 2. -/
theorem lineEntry_some (body : ℚ) (pageNum : Nat) (line : Line) (e : HeadingEntry)
    (h : lineEntry body pageNum line = some e) :
    e.text ≠ "" ∧ 2 < e.text.length ∧ e.page = pageNum ∧
      e.text = clean_heading_text (trimStr line.text) := by
  simp only [lineEntry] at h
  split at h
  · split at h
    · split at h
      · next hct =>
        cases h
        exact ⟨hct.1, hct.2, rfl, rfl⟩
      · exact absurd h (by simp)
    · exact absurd h (by simp)
  · exact absurd h (by simp)

/-- One scan step preserves the outline text invariant (nonempty, length above
2, pairwise distinct). -/
theorem processLine_preserves (body : ℚ) (pageNum : Nat) (acc : List HeadingEntry)
    (line : Line)
    (h : (∀ e ∈ acc, e.text ≠ "" ∧ 2 < e.text.length) ∧
      acc.Pairwise (fun a b => a.text ≠ b.text)) :
    (∀ e ∈ processLine body pageNum acc line, e.text ≠ "" ∧ 2 < e.text.length) ∧
      (processLine body pageNum acc line).Pairwise (fun a b => a.text ≠ b.text) := by
  unfold processLine
  cases he : lineEntry body pageNum line with
  | none => exact h
  | some e =>
    dsimp only
    by_cases hdup : is_duplicate_heading e.text acc = true
    · rw [if_pos hdup]
      exact h
    · rw [if_neg hdup]
      obtain ⟨he1, he2, _, _⟩ := lineEntry_some body pageNum line e he
      constructor
      · intro x hx
        rcases List.mem_append.mp hx with hx | hx
        · exact h.1 x hx
        · rw [List.mem_singleton] at hx
          subst hx
          exact ⟨he1, he2⟩
      · rw [List.pairwise_append]
        refine ⟨h.2, List.pairwise_singleton _ _, ?_⟩
        intro a ha b hb
        rw [List.mem_singleton] at hb
        subst hb
        intro hcontra
        apply hdup
        unfold is_duplicate_heading
        rw [List.any_eq_true]
        exact ⟨a, ha, beq_iff_eq.mpr hcontra⟩

/-- The accumulated pre-sort heading list satisfies the text invariant. -/
theorem scan_invariant (pages : List Page) (body : ℚ) :
    (∀ e ∈ pages.foldl
        (fun acc p => p.lines.foldl (fun a l => processLine body p.pageNum a l) acc) [],
      e.text ≠ "" ∧ 2 < e.text.length) ∧
    (pages.foldl
        (fun acc p => p.lines.foldl (fun a l => processLine body p.pageNum a l) acc)
        []).Pairwise (fun a b => a.text ≠ b.text) := by
  refine foldl_invariant
    (fun acc : List HeadingEntry => (∀ e ∈ acc, e.text ≠ "" ∧ 2 < e.text.length) ∧
      acc.Pairwise (fun a b => a.text ≠ b.text))
    _ pages [] ⟨by simp, List.Pairwise.nil⟩ ?_
  intro acc p hp
  refine foldl_invariant
    (fun a0 : List HeadingEntry => (∀ e ∈ a0, e.text ≠ "" ∧ 2 < e.text.length) ∧
      a0.Pairwise (fun a b => a.text ≠ b.text))
    _ p.lines acc hp ?_
  intro acc' l h'
  exact processLine_preserves body p.pageNum acc' l h'

/-- C4: every outline entry has nonempty cleaned text of length above 2, and
no two entries share the same cleaned text. -/
theorem outline_text_nonempty_unique (pages : List Page) (fontStats : FontStats) :
    (∀ e ∈ extract_headings_improved pages fontStats, e.text ≠ "" ∧ 2 < e.text.length) ∧
    (extract_headings_improved pages fontStats).Pairwise (fun a b => a.text ≠ b.text) := by
  unfold extract_headings_improved
  have hperm := List.perm_insertionSort outlineLe
    (pages.foldl
      (fun acc p => p.lines.foldl (fun a l => processLine fontStats.bodyFontSize p.pageNum a l) acc)
      [])
  have hinv := scan_invariant pages fontStats.bodyFontSize
  constructor
  · intro e he
    exact hinv.1 e (hperm.mem_iff.mp he)
  · exact (hperm.pairwise_iff fun hxy => Ne.symm hxy).mpr hinv.2

/-- Witness for C4 on a two-line document. -/
theorem outline_text_nonempty_unique_witness :
    (⟨"H1", "Summary", 1⟩ : HeadingEntry).text ≠ "" ∧
      2 < (⟨"H1", "Summary", 1⟩ : HeadingEntry).text.length :=
  (outline_text_nonempty_unique
      [⟨1, [⟨"Summary", 12, false, false⟩]⟩, ⟨2, [⟨"Summary", 16, true, false⟩]⟩]
      (analyze_font_characteristics [])).1
    ⟨"H1", "Summary", 1⟩ (by with_unfolding_all decide)

/-- Characters of any part survive into the space-join. -/
theorem mem_joinWords (c : Char) (w : List Char) :
    ∀ ws : List (List Char), w ∈ ws → c ∈ w → c ∈ joinWords ws := by
  intro ws
  induction ws with
  | nil => simp
  | cons v vs ih =>
    intro hw hc
    cases vs with
    | nil =>
      rw [List.mem_singleton] at hw
      subst hw
      simpa [joinWords] using hc
    | cons v2 vs2 =>
      show c ∈ v ++ ' ' :: joinWords (v2 :: vs2)
      rcases List.mem_cons.mp hw with hw | hw
      · subst hw
        exact List.mem_append.mpr (Or.inl hc)
      · exact List.mem_append.mpr (Or.inr (List.mem_cons_of_mem _ (ih hw hc)))

/-- A list containing a non-whitespace character trims to a nonempty list. -/
theorem trimChars_ne_nil (l : List Char) (c : Char) (hc : c ∈ l) (hws : isWs c = false) :
    trimChars l ≠ [] := by
  unfold trimChars
  intro h
  rw [List.reverse_eq_nil_iff, List.dropWhile_eq_nil_iff] at h
  have hc2 : c ∈ l.dropWhile isWs := by
    have hc' : c ∈ List.takeWhile isWs l ++ List.dropWhile isWs l := by
      rw [List.takeWhile_append_dropWhile]
      exact hc
    rcases List.mem_append.mp hc' with h2 | h2
    · exact absurd (List.mem_takeWhile_imp h2) (by simp [hws])
    · exact h2
  have := h c (List.mem_reverse.mpr hc2)
  simp [hws] at this

/-- The first character of a nonempty trim is not whitespace. -/
theorem trimChars_head_not_ws (l : List Char) (c : Char)
    (hc : (trimChars l).head? = some c) : isWs c = false := by
  have hpre : (List.dropWhile isWs (List.dropWhile isWs l).reverse).reverse <+:
      List.dropWhile isWs l := by
    have hsuf := List.dropWhile_suffix (l := (List.dropWhile isWs l).reverse) isWs
    have := List.reverse_prefix.mpr hsuf
    rwa [List.reverse_reverse] at this
  obtain ⟨t, ht⟩ := hpre
  have hm : (List.dropWhile isWs l).head? = some c := by
    rw [← ht, List.head?_append]
    unfold trimChars at hc
    rw [hc]
    rfl
  have hne : List.dropWhile isWs l ≠ [] := by
    intro h0
    rw [h0] at hm
    exact absurd hm (by simp)
  have hhead := List.head_dropWhile_not isWs l hne
  rw [List.head?_eq_head hne] at hm
  cases hm
  exact hhead

/-- Any title candidate text is some stripped line text of length at least 3. -/
theorem titleCandidates_text (lines : List Line) (body : ℚ) (cand : ℚ × String × Nat)
    (h : cand ∈ titleCandidates lines body) :
    ∃ s, cand.2.1 = trimStr s ∧ 3 ≤ cand.2.1.length := by
  unfold titleCandidates at h
  rw [List.mem_filterMap] at h
  obtain ⟨⟨i, line⟩, hmem, hline⟩ := h
  dsimp only at hline
  split at hline
  · exact absurd hline (by simp)
  · next hskip =>
    cases hline
    refine ⟨line.text, rfl, ?_⟩
    show 3 ≤ (trimStr line.text).length
    rw [Bool.not_eq_true] at hskip
    simp only [skipTitleLine, Bool.or_eq_false_iff, decide_eq_false_iff_not] at hskip
    omega

/-- The score-descending order is total. -/
theorem scoreGe_total : ∀ a b : ℚ × String × Nat, scoreGe a b ∨ scoreGe b a :=
  fun a b => le_total b.1 a.1

/-- The score-descending order is transitive. -/
theorem scoreGe_trans : ∀ a b c : ℚ × String × Nat, scoreGe a b → scoreGe b c → scoreGe a c :=
  fun _ _ _ h1 h2 => le_trans h2 h1

/-- C8: the title selector always returns a nonempty string; with no surviving
candidate it returns the fixed fallback "Document Title", and otherwise its
result is the neighbour-extended, space-joined, stripped text of a candidate of
maximal score. -/
theorem title_selector_contract (firstPage : Page) (fontStats : FontStats) :
    extract_title_improved firstPage fontStats ≠ "" ∧
    (titleCandidates firstPage.lines fontStats.bodyFontSize = [] →
      extract_title_improved firstPage fontStats = "Document Title") ∧
    (titleCandidates firstPage.lines fontStats.bodyFontSize ≠ [] →
      ∃ best ∈ titleCandidates firstPage.lines fontStats.bodyFontSize,
        (∀ c ∈ titleCandidates firstPage.lines fontStats.bodyFontSize, c.1 ≤ best.1) ∧
        extract_title_improved firstPage fontStats =
          trimStr (joinStrs (extendParts firstPage.lines best.2.2 best.2.1))) := by
  have hperm := List.perm_insertionSort scoreGe
    (titleCandidates firstPage.lines fontStats.bodyFontSize)
  cases hsort : List.insertionSort scoreGe
      (titleCandidates firstPage.lines fontStats.bodyFontSize) with
  | nil =>
    have hcand : titleCandidates firstPage.lines fontStats.bodyFontSize = [] := by
      rw [hsort] at hperm
      exact hperm.symm.eq_nil
    have hres : extract_title_improved firstPage fontStats = "Document Title" := by
      simp only [extract_title_improved]
      rw [hsort]
    refine ⟨(by rw [hres]; decide), fun _ => hres, fun hne => absurd hcand hne⟩
  | cons best rest =>
    have hres : extract_title_improved firstPage fontStats =
        trimStr (joinStrs (extendParts firstPage.lines best.2.2 best.2.1)) := by
      simp only [extract_title_improved]
      rw [hsort]
    have hbestmem : best ∈ titleCandidates firstPage.lines fontStats.bodyFontSize := by
      rw [hsort] at hperm
      exact hperm.mem_iff.mp (List.mem_cons_self _ _)
    have hmax : ∀ c ∈ titleCandidates firstPage.lines fontStats.bodyFontSize,
        c.1 ≤ best.1 := by
      intro c hc
      have hsorted := @List.sorted_insertionSort _ scoreGe _ ⟨scoreGe_total⟩ ⟨scoreGe_trans⟩
        (titleCandidates firstPage.lines fontStats.bodyFontSize)
      rw [hsort] at hsorted hperm
      rcases List.mem_cons.mp (hperm.mem_iff.mpr hc) with h | h
      · rw [h]
      · exact (List.pairwise_cons.mp hsorted).1 c h
    have hne : extract_title_improved firstPage fontStats ≠ "" := by
      rw [hres]
      obtain ⟨s, hs, hlen⟩ := titleCandidates_text _ _ best hbestmem
      have hlen' : 3 ≤ best.2.1.data.length := hlen
      obtain ⟨c, hc⟩ : ∃ c, best.2.1.data.head? = some c := by
        cases hd : best.2.1.data with
        | nil =>
          rw [hd] at hlen'
          exact absurd hlen' (by simp)
        | cons a t => exact ⟨a, rfl⟩
      have hcws : isWs c = false := by
        rw [hs] at hc
        exact trimChars_head_not_ws s.data c hc
      have hcmem : c ∈ best.2.1.data := List.mem_of_mem_head? hc
      have hparts : best.2.1 ∈ extendParts firstPage.lines best.2.2 best.2.1 := by
        unfold extendParts
        simp
      have hjoin : c ∈ (joinStrs (extendParts firstPage.lines best.2.2 best.2.1)).data :=
        mem_joinWords c best.2.1.data _ (List.mem_map_of_mem _ hparts) hcmem
      intro hcontra
      exact trimChars_ne_nil _ c hjoin hcws (congrArg String.data hcontra)
    exact ⟨hne, fun hc => absurd hbestmem (by rw [hc]; simp), fun _ =>
      ⟨best, hbestmem, hmax, hres⟩⟩

/-- Witness for C8 on a page with no surviving candidate. -/
theorem title_selector_contract_witness :
    extract_title_improved ⟨1, []⟩ (analyze_font_characteristics []) = "Document Title" :=
  (title_selector_contract ⟨1, []⟩ (analyze_font_characteristics [])).2.1
    (by with_unfolding_all decide)

/-- The per-page scan loop is the dedup-accumulate fold over the entries its
lines generate. -/
theorem lines_foldl_processLine (body : ℚ) (pageNum : Nat) (lines : List Line) :
    ∀ acc : List HeadingEntry,
      lines.foldl (fun a l => processLine body pageNum a l) acc =
        (lines.filterMap (lineEntry body pageNum)).foldl
          (fun a e => if is_duplicate_heading e.text a then a else a ++ [e]) acc := by
  induction lines with
  | nil => intro acc; rfl
  | cons l ls ih =>
    intro acc
    rw [List.foldl_cons, List.filterMap_cons]
    cases he : lineEntry body pageNum l with
    | none =>
      have hpl : processLine body pageNum acc l = acc := by
        unfold processLine
        rw [he]
      rw [hpl]
      exact ih acc
    | some e =>
      have hpl : processLine body pageNum acc l =
          (if is_duplicate_heading e.text acc then acc else acc ++ [e]) := by
        unfold processLine
        rw [he]
      rw [hpl, List.foldl_cons]
      exact ih _

/-- The whole scan is the dedup-accumulate fold over the occurrence list. -/
theorem scan_eq_dedupFold (body : ℚ) (pages : List Page) :
    pages.foldl
        (fun acc p => p.lines.foldl (fun a l => processLine body p.pageNum a l) acc) [] =
      (headingOccurrences body pages).foldl
        (fun a e => if is_duplicate_heading e.text a then a else a ++ [e]) [] := by
  suffices hgen : ∀ acc : List HeadingEntry,
      pages.foldl
          (fun acc p => p.lines.foldl (fun a l => processLine body p.pageNum a l) acc) acc =
        (headingOccurrences body pages).foldl
          (fun a e => if is_duplicate_heading e.text a then a else a ++ [e]) acc from
    hgen []
  induction pages with
  | nil => intro acc; rfl
  | cons p ps ih =>
    intro acc
    rw [List.foldl_cons]
    unfold headingOccurrences
    rw [List.flatMap_cons, List.foldl_append]
    rw [lines_foldl_processLine body p.pageNum p.lines acc]
    exact ih _

/-- Members of the dedup-accumulate fold either come from the start accumulator
or are the FIRST occurrence of their text in the scanned list. -/
theorem dedupFold_mem (occ : List HeadingEntry) :
    ∀ (acc : List HeadingEntry) (e : HeadingEntry),
      e ∈ occ.foldl (fun a x => if is_duplicate_heading x.text a then a else a ++ [x]) acc →
      e ∈ acc ∨ ((∀ a ∈ acc, a.text ≠ e.text) ∧
        occ.find? (fun o => o.text == e.text) = some e) := by
  induction occ with
  | nil =>
    intro acc e he
    exact Or.inl he
  | cons o os ih =>
    intro acc e he
    rw [List.foldl_cons] at he
    by_cases hdup : is_duplicate_heading o.text acc = true
    · rw [if_pos hdup] at he
      rcases ih acc e he with h | ⟨hall, hfind⟩
      · exact Or.inl h
      · refine Or.inr ⟨hall, ?_⟩
        have hneq : (o.text == e.text) = false := by
          unfold is_duplicate_heading at hdup
          rw [List.any_eq_true] at hdup
          obtain ⟨a, ha, hbeq⟩ := hdup
          have := hall a ha
          rw [beq_iff_eq] at hbeq
          rw [beq_eq_false_iff_ne]
          rw [← hbeq]
          exact this
        rw [List.find?_cons_of_neg _ (by simp [hneq]), hfind]
    · rw [if_neg hdup] at he
      rcases ih (acc ++ [o]) e he with h | ⟨hall, hfind⟩
      · rcases List.mem_append.mp h with h | h
        · exact Or.inl h
        · rw [List.mem_singleton] at h
          subst h
          refine Or.inr ⟨?_, ?_⟩
          · intro a ha
            intro hcontra
            apply hdup
            unfold is_duplicate_heading
            rw [List.any_eq_true]
            exact ⟨a, ha, beq_iff_eq.mpr hcontra⟩
          · exact List.find?_cons_of_pos _ (by simp)
      · refine Or.inr ⟨fun a ha => hall a (List.mem_append.mpr (Or.inl ha)), ?_⟩
        have hneq : (o.text == e.text) = false := by
          rw [beq_eq_false_iff_ne]
          exact hall o (List.mem_append.mpr (Or.inr (List.mem_singleton.mpr rfl)))
        rw [List.find?_cons_of_neg _ (by simp [hneq]), hfind]

/-- Every occurrence carries the number of the page that produced it. -/
theorem headingOccurrences_page (body : ℚ) (p : Page) (e : HeadingEntry)
    (h : e ∈ p.lines.filterMap (lineEntry body p.pageNum)) : e.page = p.pageNum := by
  rw [List.mem_filterMap] at h
  obtain ⟨l, _, hl⟩ := h
  exact (lineEntry_some body p.pageNum l e hl).2.2.1

/-- With pages scanned in nondecreasing page-number order, the occurrence list
is nondecreasing in its page components. -/
theorem headingOccurrences_mono (body : ℚ) (pages : List Page)
    (hmono : (pages.map Page.pageNum).Pairwise (· ≤ ·)) :
    (headingOccurrences body pages).Pairwise (fun a b => a.page ≤ b.page) := by
  induction pages with
  | nil => exact List.Pairwise.nil
  | cons p ps ih =>
    unfold headingOccurrences
    rw [List.flatMap_cons, List.pairwise_append]
    rw [List.map_cons, List.pairwise_cons] at hmono
    refine ⟨?_, ih hmono.2, ?_⟩
    · apply List.pairwise_of_forall_mem_list
      intro a ha b hb
      rw [headingOccurrences_page body p a ha, headingOccurrences_page body p b hb]
    · intro a ha b hb
      rw [headingOccurrences_page body p a ha]
      rw [List.mem_flatMap] at hb
      obtain ⟨q, hq, hbq⟩ := hb
      rw [headingOccurrences_page body q b hbq]
      exact hmono.1 q.pageNum (List.mem_map_of_mem Page.pageNum hq)

/-- C10: when pages are scanned in nondecreasing page order, every outline
entry is exactly the FIRST entry of its cleaned text in the page-then-line scan
(so it keeps that occurrence's level and page), and its page number is minimal
among all occurrences of that text. -/
theorem duplicate_heading_first_kept (pages : List Page) (fontStats : FontStats)
    (hmono : (pages.map Page.pageNum).Pairwise (· ≤ ·)) :
    ∀ e ∈ extract_headings_improved pages fontStats,
      (headingOccurrences fontStats.bodyFontSize pages).find?
          (fun o => o.text == e.text) = some e ∧
      ∀ o ∈ headingOccurrences fontStats.bodyFontSize pages,
        o.text = e.text → e.page ≤ o.page := by
  intro e he
  unfold extract_headings_improved at he
  have hperm := List.perm_insertionSort outlineLe
    (pages.foldl
      (fun acc p => p.lines.foldl (fun a l => processLine fontStats.bodyFontSize p.pageNum a l) acc)
      [])
  have hacc := hperm.mem_iff.mp he
  rw [scan_eq_dedupFold] at hacc
  have hfind := dedupFold_mem (headingOccurrences fontStats.bodyFontSize pages) [] e hacc
  rcases hfind with h | ⟨_, hfind⟩
  · exact absurd h (by simp)
  refine ⟨hfind, ?_⟩
  obtain ⟨-, pre, post, hsplit, hpre⟩ := List.find?_eq_some.mp hfind
  intro o ho hto
  have hmonoocc := headingOccurrences_mono fontStats.bodyFontSize pages hmono
  rw [hsplit] at hmonoocc ho
  rcases List.mem_append.mp ho with h | h
  · have := hpre o h
    rw [hto] at this
    simp at this
  · rcases List.mem_cons.mp h with h | h
    · rw [h]
    · have hpw := (List.pairwise_append.mp hmonoocc).2.1
      exact (List.pairwise_cons.mp hpw).1 o h

/-- Witness for C10: the same heading text on pages 1 and 2; the kept entry is
the page-1 occurrence. -/
theorem duplicate_heading_first_kept_witness :
    (headingOccurrences 12
        [⟨1, [⟨"Summary", 16, false, false⟩]⟩, ⟨2, [⟨"Summary", 18, false, false⟩]⟩]).find?
        (fun o => o.text == (⟨"H1", "Summary", 1⟩ : HeadingEntry).text) =
      some ⟨"H1", "Summary", 1⟩ :=
  (duplicate_heading_first_kept
      [⟨1, [⟨"Summary", 16, false, false⟩]⟩, ⟨2, [⟨"Summary", 18, false, false⟩]⟩]
      ⟨12, Rat.divInt 25 2, [12], []⟩
      (by with_unfolding_all decide)
      ⟨"H1", "Summary", 1⟩ (by with_unfolding_all decide)).1
